import Mathlib

/-!
Verification development for the `payment-proofs` crate of
kayabaNerve/monero-wallet-util.

The development shallowly embeds the crate's three components — the chunked
base58 codec (`src/base58.rs`), the shared-key derivations
(`src/shared_key_derivations.rs`) and the OutProof prove/verify/serialize
operations (`src/out_proof.rs`) — as executable Lean definitions, and proves
properties of those definitions.

Modelling conventions:
* Byte strings are `List Nat` with every entry `< 256`; `&str` data is its
  UTF-8 byte list (all strings involved are ASCII).
* `u64` arithmetic is `Nat` with explicit `% 2 ^ 64` where Rust wraps.
* The Ed25519 curve group (an external collaborator of this crate) is cyclic
  of order `8 * l` with `l` prime; it is modelled as `ZMod (8 * l)`, scalars
  as `ZMod l`, with scalar multiplication acting through `Nat`-casts.
  Point/scalar compression, an injective canonical 32-byte encoding provided
  by the external curve library, is modelled as the little-endian byte
  encoding of the representative.
* The Keccak-256 hash and the transaction model's varint encoder are
  external collaborators and are passed as explicit function parameters.
* Fallible Rust code returns `Option`; a reachable `unwrap` panic is a
  distinguished third outcome (`crash`) of the result type.
* Loops whose measure is a divided number or a dropped list are defined
  structurally over an explicit fuel argument (so that they compute by
  kernel reduction); the fuel is always instantiated with a provably
  sufficient value and fuel-adequacy lemmas below recover the natural
  recurrences, so the fuel is an artifact of the encoding, not a semantic
  change.
-/

set_option maxRecDepth 100000

/-! ## Byte-level helpers -/

/-- Big-endian value of a byte list: `u64::from_be_bytes` composed with the
zero-padding used by the source (leading zeros do not change the value). -/
def beBytesToNat (bs : List Nat) : Nat :=
  bs.foldl (fun a b => a * 256 + b) 0

/-- Little-endian value of a byte list (`u64::from_le_bytes` and friends). -/
def leBytesToNat (bs : List Nat) : Nat :=
  bs.foldr (fun b a => a * 256 + b) 0

/-- The `k` big-endian bytes of `v` (`u64::to_be_bytes` for `k = 8`). -/
def natToBEBytes : Nat → Nat → List Nat
  | 0, _ => []
  | k + 1, v => natToBEBytes k (v / 256) ++ [v % 256]

/-- The `k` little-endian bytes of `v` (dalek `to_bytes` for `k = 32`). -/
def natToLEBytes : Nat → Nat → List Nat
  | 0, _ => []
  | k + 1, v => v % 256 :: natToLEBytes k (v / 256)

/-- Byte-wise xor of two equal-length byte strings. -/
def xorBytes (a b : List Nat) : List Nat :=
  List.zipWith (fun x y => Nat.xor x y) a b

/-! ## Base58 codec (`src/base58.rs`) -/

/-- The 58-symbol Monero base58 alphabet, as bytes
(`b"123456789ABCDEFGHJKLMNPQRSTUVWXYZabcdefghijkmnopqrstuvwxyz"`). -/
def ALPHABET : List Nat :=
  [49, 50, 51, 52, 53, 54, 55, 56, 57,
   65, 66, 67, 68, 69, 70, 71, 72, 74, 75, 76, 77, 78, 80, 81, 82, 83, 84,
   85, 86, 87, 88, 89, 90,
   97, 98, 99, 100, 101, 102, 103, 104, 105, 106, 107, 109, 110, 111, 112,
   113, 114, 115, 116, 117, 118, 119, 120, 121, 122]

/-- Fuelled form of the `while max != 0 { max /= 58; i += 1 }` loop of
`encoded_len_for_bytes`: the number of divisions by 58 needed to reach 0. -/
def digitsLenF : Nat → Nat → Nat
  | _, 0 => 0
  | 0, _ + 1 => 0
  | f + 1, m + 1 => digitsLenF f ((m + 1) / 58) + 1

/-- Number of repeated divisions by 58 needed to reduce `max` to zero; the
fuel `max` itself is sufficient since the argument strictly decreases. -/
def digitsLen (max : Nat) : Nat := digitsLenF max max

/-- Rust `encoded_len_for_bytes`: the maximum possible length of an encoding
of `bytes` bytes — 11 characters per whole 8-byte block plus the digit count
of the maximum value representable in the remaining bytes. -/
def encoded_len_for_bytes (bytes : Nat) : Nat :=
  let i := (bytes / 8) * 11
  let rem := bytes % 8
  let bits := rem * 8
  let max := if bits = 64 then 2 ^ 64 - 1 else 2 ^ bits - 1
  i + digitsLen max

/-- Fuelled form of the `while val > 0` digit loop of `encode`: base58
digits of `val`, least-significant first. -/
def unpaddedDigitsF : Nat → Nat → List Nat
  | _, 0 => []
  | 0, _ + 1 => []
  | f + 1, v + 1 => (v + 1) % 58 :: unpaddedDigitsF f ((v + 1) / 58)

/-- Base58 digits of `val`, least-significant first. -/
def unpaddedDigitsLE (val : Nat) : List Nat := unpaddedDigitsF val val

/-- Fuelled form of `[T]::chunks(n)` (each step consumes at least one
element when `n > 0`, so the list length is sufficient fuel). -/
def chunksF : Nat → Nat → List Nat → List (List Nat)
  | _, _, [] => []
  | 0, _, _ :: _ => []
  | f + 1, n, x :: xs => (x :: xs).take n :: chunksF f n ((x :: xs).drop n)

/-- Rust `[T]::chunks(n)`: split into consecutive chunks of length `n`, the
final chunk possibly shorter.  (The source only calls this with `n` equal
to 8 or 11; `chunks(0)` would panic in Rust and returns junk here.) -/
def chunksL (n : Nat) (l : List Nat) : List (List Nat) := chunksF l.length n l

/-- Per-chunk body of `encode`: interpret the (zero-left-padded) chunk as a
big-endian `u64`, produce base58 digits least-significant-first into an
11-slot buffer pre-filled with digit 0 (`ALPHABET[0]`), keep
`encoded_len_for_bytes(chunk.len())` of them, reverse, and map through the
alphabet. -/
def encodeChunk (chunk : List Nat) : List Nat :=
  let val := beBytesToNat (List.replicate (8 - chunk.length) 0 ++ chunk)
  let digits := unpaddedDigitsLE val
  let chunk_str := digits ++ List.replicate (11 - digits.length) 0
  ((chunk_str.take (encoded_len_for_bytes chunk.length)).reverse).map
    (fun i => ALPHABET.getD i 0)

/-- Rust `base58::encode`: concatenation of the per-chunk encodings over
8-byte chunks. -/
def encodeB58 (bytes : List Nat) : List Nat :=
  ((chunksL 8 bytes).map encodeChunk).flatten

/-- Outcome of running `base58::decode`: a returned `Some` value, a returned
`None`, or a panic (`used_bytes.unwrap()` on `None`). -/
inductive DRes where
  | ok (bytes : List Nat)
  | fail
  | crash
deriving DecidableEq

/-- Accumulation loop of `decode` over one chunk's characters:
`sum = sum.checked_mul(58)?` followed by the (wrapping, unchecked)
`sum += position-in-alphabet?`. -/
def decodeChunkSum (sum : Nat) : List Nat → Option Nat
  | [] => some sum
  | c :: rest =>
    if sum * 58 < 2 ^ 64 then
      match ALPHABET.findIdx? (fun a => a = c) with
      | some idx => decodeChunkSum ((sum * 58 + idx) % 2 ^ 64) rest
      | none => none
    else none

/-- Chunk-by-chunk body of `decode`: accumulate each chunk (propagating its
`?` failures), look up the byte length whose encoded length matches the
chunk length over `1..=8` (panicking when none does), and emit the matching
low-order big-endian bytes of the accumulator. -/
def decodeGo : List (List Nat) → DRes
  | [] => .ok []
  | c :: rest =>
    match decodeChunkSum 0 c with
    | none => .fail
    | some sum =>
      match (List.range' 1 8).find? (fun i => encoded_len_for_bytes i == c.length) with
      | none => .crash
      | some used =>
        match decodeGo rest with
        | .ok bs => .ok ((natToBEBytes 8 sum).drop (8 - used) ++ bs)
        | r => r

/-- Rust `base58::decode` over the input's 11-character chunks. -/
def decodeB58 (data : List Nat) : DRes :=
  decodeGo (chunksL 11 data)

/-! ## Curve model (external collaborator: `curve25519_dalek`)

The Ed25519 curve group is cyclic of order `8 * l` (`l` the prime order of
the scalar field); `EdwardsPoint` is modelled as `ZMod (8 * l)` and `Scalar`
as `ZMod l`.  A scalar acts on a point through its canonical representative,
which in `ZMod (8 * l)` is multiplication by the `Nat`-cast. -/

/-- Order of the prime-order subgroup of Ed25519 (the scalar field order). -/
def lOrd : Nat := 2 ^ 252 + 27742317777372353535851937790883648493

/-- Order of the full Ed25519 curve group (cofactor 8 times `lOrd`). -/
def curveOrder : Nat := 8 * lOrd

/-- Model of `curve25519_dalek::scalar::Scalar`. -/
abbrev Sc : Type := ZMod lOrd

/-- Model of `curve25519_dalek::edwards::EdwardsPoint` (the full curve
group, cyclic of order `8 * lOrd`). -/
abbrev Pt : Type := ZMod curveOrder

instance : NeZero lOrd := ⟨by decide⟩

instance : NeZero curveOrder := ⟨by decide⟩

/-- Model of `ED25519_BASEPOINT_POINT`: a fixed element of order `lOrd`. -/
def basePoint : Pt := (8 : Pt)

/-- Model of the Pedersen commitment auxiliary generator `H` (an external
constant of `monero_wallet::primitives`): a fixed curve element. -/
def hPoint : Pt := (24 : Pt)

/-- Scalar multiplication `EdwardsPoint * Scalar`, via the scalar's
canonical representative. -/
def smul (s : Sc) (p : Pt) : Pt := ((s.val : Nat) : Pt) * p

/-- Scalar multiplication by a `u64` amount (`Scalar::from(amount) * H`). -/
def smulNat (n : Nat) (p : Pt) : Pt := ((n : Nat) : Pt) * p

/-- Model of `EdwardsPoint::mul_by_cofactor`. -/
def mulByCofactor (p : Pt) : Pt := (8 : Pt) * p

/-- Model of `CompressedEdwardsY::to_bytes ∘ EdwardsPoint::compress`: the
canonical injective fixed-size 32-byte encoding the external curve library
provides, realised as the little-endian bytes of the representative. -/
def compressPt (p : Pt) : List Nat := natToLEBytes 32 p.val

/-- Model of `Scalar::to_bytes`/`Scalar::as_bytes`: canonical little-endian
32-byte encoding. -/
def scalarBytes (s : Sc) : List Nat := natToLEBytes 32 s.val

/-- Model of `Scalar::from_bytes_mod_order`: little-endian value reduced
modulo the scalar field order. -/
def scalarFromBytes (bs : List Nat) : Sc := ((leBytesToNat bs : Nat) : Sc)

/-- Model of `monero_wallet::io::read_point`: parse a canonical 32-byte
point encoding, rejecting non-canonical input. -/
def readPt (bs : List Nat) : Option Pt :=
  if bs.length = 32 ∧ leBytesToNat bs < curveOrder
  then some ((leBytesToNat bs : Nat) : Pt) else none

/-- Model of `monero_wallet::io::read_scalar`: parse a canonical 32-byte
scalar encoding, rejecting non-canonical input. -/
def readSc (bs : List Nat) : Option Sc :=
  if leBytesToNat bs < lOrd
  then some ((leBytesToNat bs : Nat) : Sc) else none

/-! ## Shared-key derivations (`src/shared_key_derivations.rs`)

`keccak` models the external 256-bit hash primitive
(`monero_wallet::primitives::keccak256`), and `varint` the external
variable-length integer encoder (`monero_wallet::io::write_varint`); both
are passed explicitly.  `keccak256_to_scalar` is
`Scalar::from_bytes_mod_order ∘ keccak256`. -/

/-- Model of `monero_wallet::transaction::Input`. -/
inductive InputM where
  | gen (height : Nat)
  | toKey (keyImage : Pt)

/-- The ephemeral per-output secret record `SharedKeyDerivations`. -/
structure SKD where
  view_tag : Nat
  shared_key : Sc
deriving DecidableEq

/-- Rust `SharedKeyDerivations::uniqueness`: hash of the literal tag
`"uniqueness"` followed by, per input, the varint of a coinbase height or
the compressed key image. -/
def uniquenessM (keccak : List Nat → List Nat) (varint : Nat → List Nat)
    (inputs : List InputM) : List Nat :=
  keccak ([117, 110, 105, 113, 117, 101, 110, 101, 115, 115] ++
    (inputs.map (fun i => match i with
      | .gen height => varint height
      | .toKey keyImage => compressPt keyImage)).flatten)

/-- Rust `SharedKeyDerivations::output_derivations`:
`buf = compress(ecdh * 8) || varint(o)`; the view tag is the first byte of
`keccak("view_tag" || buf)`; the shared key is `keccak_to_scalar` of `buf`
with the uniqueness value prepended when one is supplied. -/
def outputDerivations (keccak : List Nat → List Nat) (varint : Nat → List Nat)
    (uniq : Option (List Nat)) (ecdh : Pt) (o : Nat) : SKD :=
  let output_derivation := compressPt (mulByCofactor ecdh) ++ varint o
  let view_tag := (keccak ([118, 105, 101, 119, 95, 116, 97, 103] ++ output_derivation)).getD 0 0
  let output_derivation2 :=
    match uniq with
    | some u => u ++ output_derivation
    | none => output_derivation
  { view_tag := view_tag, shared_key := scalarFromBytes (keccak output_derivation2) }

/-- Rust `SharedKeyDerivations::payment_id_xor`: first 8 bytes of
`keccak(compress(ecdh * 8) || 0x8d)`. -/
def paymentIdXor (keccak : List Nat → List Nat) (ecdh : Pt) : List Nat :=
  (keccak (compressPt (mulByCofactor ecdh) ++ [0x8d])).take 8

/-- Rust `SharedKeyDerivations::commitment_mask`:
`keccak_to_scalar("commitment_mask" || shared_key_bytes)`. -/
def commitmentMask (keccak : List Nat → List Nat) (skd : SKD) : Sc :=
  scalarFromBytes (keccak
    ([99, 111, 109, 109, 105, 116, 109, 101, 110, 116, 95, 109, 97, 115, 107] ++
      scalarBytes skd.shared_key))

/-- Rust `SharedKeyDerivations::compact_amount_encryption`: xor of the
little-endian amount with the first 8 bytes of
`keccak("amount" || shared_key_bytes)`. -/
def compactAmountEncryption (keccak : List Nat → List Nat) (skd : SKD)
    (amount : Nat) : List Nat :=
  let amount_mask := keccak ([97, 109, 111, 117, 110, 116] ++ scalarBytes skd.shared_key)
  natToLEBytes 8 (Nat.xor amount (leBytesToNat (amount_mask.take 8)))

/-- Model of `monero_wallet::ringct::EncryptedAmount` (the original 32-byte
mask/amount shape and the compact 8-byte shape). -/
inductive EncAmount where
  | original (mask amount : List Nat)
  | compact (amount : List Nat)

/-- Model of `monero_wallet::primitives::Commitment`. -/
structure CommitmentM where
  mask : Sc
  amount : Nat
deriving DecidableEq

/-- Model of `Commitment::calculate`: the Pedersen commitment
`mask * G + amount * H`. -/
def commitmentCalculate (c : CommitmentM) : Pt :=
  smul c.mask basePoint + smulNat c.amount hPoint

/-- Rust `SharedKeyDerivations::decrypt` over both encrypted-amount
shapes. -/
def decryptM (keccak : List Nat → List Nat) (skd : SKD) (ea : EncAmount) :
    CommitmentM :=
  match ea with
  | .original mask amount =>
    let mask_shared_sec := keccak (scalarBytes skd.shared_key)
    let mask2 : Sc := scalarFromBytes mask - scalarFromBytes mask_shared_sec
    let amount_shared_sec := keccak mask_shared_sec
    let amount_scalar : Sc := scalarFromBytes amount - scalarFromBytes amount_shared_sec
    { mask := mask2, amount := leBytesToNat ((scalarBytes amount_scalar).take 8) }
  | .compact amount =>
    { mask := commitmentMask keccak skd,
      amount := leBytesToNat
        (compactAmountEncryption keccak skd (leBytesToNat amount)) }

/-! ## OutProof (`src/out_proof.rs`)

The address and transaction types are external collaborators
(`monero_wallet::address::Address`, `monero_wallet::transaction::Transaction`
and its `Extra` parsing); they are modelled as records holding exactly the
values the crate consumes: the parsing of the transaction's extra field is
abstracted as its result (`extraKeys`, `extraPaymentId`, with `none`
modelling an `Extra::read`/`keys()` failure), and `proofs = none` covers
both a `V1` transaction and a `V2` transaction without a RingCT bundle. -/

/-- Model of `monero_wallet::address::Address`. -/
structure AddressM where
  isSubaddress : Bool
  isGuaranteed : Bool
  spend : Pt
  view : Pt
  paymentId : Option (List Nat)

/-- The proof triple `OutProof { ecdh, c, s }`. -/
structure OutProofM where
  ecdh : Pt
  c : Sc
  s : Sc
deriving DecidableEq

/-- One output of a transaction, holding the fields `verify` consumes. -/
structure OutputM where
  amount : Option Nat
  viewTag : Option Nat

/-- The RingCT bundle fields `verify` consumes. -/
structure RctProofsM where
  encryptedAmounts : List EncAmount
  commitments : List Pt

/-- Model of `monero_wallet::transaction::Transaction`, holding the values
`verify` consumes. -/
structure TxM where
  inputs : List InputM
  outputs : List OutputM
  extraKeys : Option (List Pt × Option (List Pt))
  extraPaymentId : Option (List Nat)
  proofs : Option RctProofsM

/-- Rust `OutProof::challenge`: a running Keccak-256 over, in order, the
hash of the message, compressed `D`, compressed `X`, compressed `Y`, the
domain-separation tag hash, compressed `R`, the compressed view key, and
the compressed spend key for subaddresses or 32 zero bytes otherwise;
finalized and reduced to a scalar. -/
def challengeM (keccak : List Nat → List Nat) (address : AddressM)
    (nonce_commitment_generator nonce_commitment_view_key
     ephemeral_key_commitment ecdh : Pt) (message : List Nat) : Sc :=
  let st := [] ++ keccak message
  let st := st ++ compressPt ecdh
  let st := st ++ compressPt nonce_commitment_generator
  let st := st ++ compressPt nonce_commitment_view_key
  let st := if ¬address.isGuaranteed
    then st ++ keccak [84, 88, 80, 82, 79, 79, 70, 95, 86, 50]
    else st ++ keccak [84, 88, 80, 82, 79, 79, 70, 95, 86, 50, 95,
                       71, 85, 65, 82, 65, 78, 84, 69, 69, 68]
  let st := st ++ compressPt ephemeral_key_commitment
  let st := st ++ compressPt address.view
  let st := if address.isSubaddress
    then st ++ compressPt address.spend
    else st ++ List.replicate 32 0
  scalarFromBytes (keccak st)

/-- The commitment generator selected by `OutProof::prove` (line 81-82):
the base point if the address is a subaddress, the address's spend key
otherwise. -/
def proveGenerator (address : AddressM) : Pt :=
  if address.isSubaddress then basePoint else address.spend

/-- The commitment generator selected by `OutProof::verify` (line 112-113);
textually identical to the one in `prove`. -/
def verifyGenerator (address : AddressM) : Pt :=
  if address.isSubaddress then basePoint else address.spend

/-- Rust `OutProof::prove` with the sampled random nonce made an explicit
argument (the only effect of the `rng` parameter). -/
def proveM (keccak : List Nat → List Nat) (address : AddressM)
    (ephemeral_key : Sc) (message : List Nat) (nonce : Sc) : OutProofM :=
  let commitment_generator := proveGenerator address
  let nonce_commitment_generator := smul nonce commitment_generator
  let nonce_commitment_view_key := smul nonce address.view
  let ephemeral_key_commitment := smul ephemeral_key commitment_generator
  let ecdh := smul ephemeral_key address.view
  let c := challengeM keccak address nonce_commitment_generator
    nonce_commitment_view_key ephemeral_key_commitment ecdh message
  let s := nonce - c * ephemeral_key
  { ecdh := ecdh, c := c, s := s }

/-- Everything `verify` does after a candidate key's challenge matches:
fetch the output, derive the per-output secret, check the view tag, check
the payment id, and recover the amount (plain, or by decrypting and
re-checking the RingCT commitment).  A `none` models any `None?` early
return. -/
def verifyBody (keccak : List Nat → List Nat) (varint : Nat → List Nat)
    (pf : OutProofM) (tx : TxM) (output_index : Nat) (address : AddressM) :
    Option Nat :=
  match tx.outputs.get? output_index with
  | none => none
  | some output =>
    let skd := outputDerivations keccak varint
      (if address.isGuaranteed then some (uniquenessM keccak varint tx.inputs) else none)
      pf.ecdh output_index
    let amount_step : Option Nat :=
      match output.amount with
      | some amount => some amount
      | none =>
        match tx.proofs with
        | none => none
        | some prfs =>
          match prfs.encryptedAmounts.get? output_index with
          | none => none
          | some ea =>
            let commitment := decryptM keccak skd ea
            if prfs.commitments.get? output_index ≠ some (commitmentCalculate commitment)
            then none
            else some commitment.amount
    let payment_id_step : Option Nat :=
      match address.paymentId with
      | some payment_id =>
        (match tx.extraPaymentId with
         | some epid =>
           if payment_id ≠ xorBytes epid (paymentIdXor keccak pf.ecdh)
           then none else amount_step
         | none => none)
      | none => amount_step
    match output.viewTag with
    | some actual_view_tag =>
      if actual_view_tag ≠ skd.view_tag then none else payment_id_step
    | none => payment_id_step

/-- The `while let Some(Some(key)) = keys.next()` loop of `verify`: stop at
the first `none` entry or at the end of the candidate list; for a `some`
candidate, accept it when the recomputed challenge over the reconstructed
nonce commitments `s*gen - c*key` and `s*view - c*ecdh` equals `c` (note
the source subtracts). -/
def verifyLoop (keccak : List Nat → List Nat) (varint : Nat → List Nat)
    (pf : OutProofM) (tx : TxM) (output_index : Nat) (address : AddressM)
    (message : List Nat) (s_commitment_generator s_commitment_view_key : Pt) :
    List (Option Pt) → Option Nat
  | [] => none
  | none :: _ => none
  | some key :: rest =>
    if pf.c = challengeM keccak address
        (s_commitment_generator - smul pf.c key)
        (s_commitment_view_key - smul pf.c pf.ecdh)
        key pf.ecdh message
    then verifyBody keccak varint pf tx output_index address
    else verifyLoop keccak varint pf tx output_index address message
      s_commitment_generator s_commitment_view_key rest

/-- Rust `OutProof::verify`: compute the generator, the candidate public
key list from the transaction's extra (primary keys, then the additional
key for this output index), and run the candidate loop. -/
def verifyM (keccak : List Nat → List Nat) (varint : Nat → List Nat)
    (pf : OutProofM) (tx : TxM) (output_index : Nat) (address : AddressM)
    (message : List Nat) : Option Nat :=
  let commitment_generator := verifyGenerator address
  let s_commitment_generator := smul pf.s commitment_generator
  let s_commitment_view_key := smul pf.s address.view
  match tx.extraKeys with
  | none => none
  | some (keys, additional_keys) =>
    verifyLoop keccak varint pf tx output_index address message
      s_commitment_generator s_commitment_view_key
      (keys.map some ++ [additional_keys.bind (fun ks => ks.get? output_index)])

/-- Modelled from the spec: the candidate-acceptance loop as §4.3 step 2
words it — `X' = s·generator + c·key`, `Y' = s·address.view_pub + c·ecdh`
(the source subtracts both products instead).  Used only to contrast the
source's `verify` with the specified one. -/
def verifySpecLoop (keccak : List Nat → List Nat) (varint : Nat → List Nat)
    (pf : OutProofM) (tx : TxM) (output_index : Nat) (address : AddressM)
    (message : List Nat) (s_commitment_generator s_commitment_view_key : Pt) :
    List (Option Pt) → Option Nat
  | [] => none
  | none :: _ => none
  | some key :: rest =>
    if pf.c = challengeM keccak address
        (s_commitment_generator + smul pf.c key)
        (s_commitment_view_key + smul pf.c pf.ecdh)
        key pf.ecdh message
    then verifyBody keccak varint pf tx output_index address
    else verifySpecLoop keccak varint pf tx output_index address message
      s_commitment_generator s_commitment_view_key rest

/-- Modelled from the spec: `verify` with the specified nonce-commitment
reconstruction (`+` instead of the source's `-`); all other steps are the
source's. -/
def verifySpecM (keccak : List Nat → List Nat) (varint : Nat → List Nat)
    (pf : OutProofM) (tx : TxM) (output_index : Nat) (address : AddressM)
    (message : List Nat) : Option Nat :=
  let commitment_generator := verifyGenerator address
  let s_commitment_generator := smul pf.s commitment_generator
  let s_commitment_view_key := smul pf.s address.view
  match tx.extraKeys with
  | none => none
  | some (keys, additional_keys) =>
    verifySpecLoop keccak varint pf tx output_index address message
      s_commitment_generator s_commitment_view_key
      (keys.map some ++ [additional_keys.bind (fun ks => ks.get? output_index)])

/-- The byte string of the literal tag `"OutProofV2"`. -/
def outProofTag : List Nat := [79, 117, 116, 80, 114, 111, 111, 102, 86, 50]

/-- Rust `OutProof::write`: the `"OutProofV2"` tag, then per proof the
base58 encoding of the compressed `ecdh` followed by the base58 encoding of
`c`'s bytes concatenated with `s`'s bytes. -/
def writeM (proofs : List OutProofM) : List Nat :=
  outProofTag ++
    (proofs.map (fun pf =>
      encodeB58 (compressPt pf.ecdh) ++
      encodeB58 (scalarBytes pf.c ++ scalarBytes pf.s))).flatten

/-- Outcome of running `OutProof::read`: a returned `Some` list, a returned
`None`, or a panic propagated from `base58::decode`. -/
inductive RRes where
  | ok (proofs : List OutProofM)
  | fail
  | crash
deriving DecidableEq

/-- Combine a base58 decode outcome with the rest of `read`'s loop. -/
def bindDRes (r : DRes) (f : List Nat → RRes) : RRes :=
  match r with
  | .ok bs => f bs
  | .fail => .fail
  | .crash => .crash

/-- Fuelled form of the `while !proofs.is_empty()` loop of `read`: check
the remaining length, base58-decode the fixed-width `ecdh` and signature
fields, parse them as a canonical point and two canonical scalars, and
continue on the rest.  Each iteration consumes `44 + 88` characters, so the
input length is sufficient fuel. -/
def readGoF : Nat → List Nat → RRes
  | _, [] => .ok []
  | 0, _ :: _ => .fail
  | f + 1, c :: cs =>
    let s := c :: cs
    if s.length < encoded_len_for_bytes 32 + encoded_len_for_bytes 64 then .fail
    else
      bindDRes (decodeB58 (s.take (encoded_len_for_bytes 32))) (fun ecdh_bytes =>
        let s2 := s.drop (encoded_len_for_bytes 32)
        bindDRes (decodeB58 (s2.take (encoded_len_for_bytes 64))) (fun signature =>
          let s3 := s2.drop (encoded_len_for_bytes 64)
          match readPt ecdh_bytes, readSc (signature.take 32), readSc (signature.drop 32) with
          | some p, some c0, some s0 =>
            match readGoF f s3 with
            | .ok rest => .ok ({ ecdh := p, c := c0, s := s0 } :: rest)
            | r => r
          | _, _, _ => .fail))

/-- Rust `OutProof::read`: if the input does not start with the
`"OutProofV2"` tag, return the empty list; otherwise run the field loop on
the remainder. -/
def readM (proofs : List Nat) : RRes :=
  if proofs.take 10 = outProofTag
  then readGoF (proofs.drop 10).length (proofs.drop 10)
  else .ok []

/-! ## Concrete model instances

The hash primitive and the varint encoder are external collaborators; the
counterexample theorems instantiate them with concrete executable models so
the source functions can be evaluated at concrete inputs. -/

/-- A concrete stand-in for the external 256-bit hash: a rolling polynomial
accumulator modulo a 255-bit prime, emitted as 32 little-endian bytes. -/
def keccakModel (bs : List Nat) : List Nat :=
  natToLEBytes 32 (bs.foldl (fun a b => (a * 313 + b + 7) % (2 ^ 255 - 19)) 11)

/-- Fuelled form of the external little-endian base-128 varint encoder
(`monero_wallet::io::write_varint`). -/
def varintF : Nat → Nat → List Nat
  | 0, v => [v % 128]
  | f + 1, v => if v < 128 then [v] else (v % 128 + 128) :: varintF f (v / 128)

/-- A concrete model of the external varint encoder. -/
def varintModel (v : Nat) : List Nat := varintF v v

/-- A concrete non-subaddress, non-guaranteed address with a spend key that
is not the base point. -/
def addrPlain : AddressM :=
  { isSubaddress := false, isGuaranteed := false,
    spend := (16 : Pt), view := (48 : Pt), paymentId := none }

/-- A concrete subaddress with a spend key that is not the base point. -/
def addrSub : AddressM :=
  { isSubaddress := true, isGuaranteed := false,
    spend := (16 : Pt), view := (48 : Pt), paymentId := none }

/-- The concrete ephemeral key used in the prove/verify counterexample. -/
def ephC2 : Sc := (3 : Sc)

/-- The concrete prove nonce used in the prove/verify counterexample. -/
def nonceC2 : Sc := (5 : Sc)

/-- The concrete message used in the prove/verify counterexample. -/
def msgC2 : List Nat := [109]

/-- The proof produced by `prove` at the concrete counterexample inputs. -/
def pfC2 : OutProofM := proveM keccakModel addrPlain ephC2 msgC2 nonceC2

/-- A transaction constructed for `addrPlain` with ephemeral key `ephC2`:
its extra holds exactly the ephemeral-key commitment `prove` publishes
(`generator * ephemeral_key` for `prove`'s own generator), and its single
output carries a plaintext amount of 5 and the view tag derived from the
proof's Diffie-Hellman value. -/
def txC2 : TxM :=
  { inputs := [],
    outputs := [{ amount := some 5,
                  viewTag := some ((outputDerivations keccakModel varintModel
                    none pfC2.ecdh 0).view_tag) }],
    extraKeys := some ([smul ephC2 (proveGenerator addrPlain)], none),
    extraPaymentId := none,
    proofs := none }

/-- The mathematical value of a chunk's digit-index list under the spec's
accumulation `value = value * 58 + digit_index`, starting from `a`. -/
def b58ValFrom (a : Nat) (ds : List Nat) : Nat :=
  ds.foldl (fun x d => x * 58 + d) a

/-- The mathematical value of a chunk's digit-index list (no width limit). -/
def b58Val (ds : List Nat) : Nat := b58ValFrom 0 ds

/-- The digit indices of an 11-character chunk whose first 10 characters
accumulate to `(2^64 - 1) / 58 = 318047311615681924`, whose final digit
index 57 then pushes the accumulated value to `2^64 + 33`, past the 64-bit
accumulator — past `checked_mul` but overflowing the unchecked addition. -/
def overflowDigits : List Nat := [42, 47, 30, 11, 32, 37, 36, 15, 38, 28, 57]

/-- The base58 characters (bytes) of `overflowDigits`: the string
`"jpXCZedGfVz"`. -/
def overflowStr : List Nat := overflowDigits.map (fun d => ALPHABET.getD d 0)

/-- A concrete proof value used to witness the serialization claims. -/
def pfZero : OutProofM := { ecdh := 0, c := 0, s := 0 }

/-! # Theorems

First the fuel-adequacy lemmas recovering the natural recurrences of the
fuelled definitions, then the base58 roundtrip development, then one
theorem per claim (with witnesses where the claim theorem has a
hypothesis). -/

theorem digitsLenF_fuel (m : Nat) : ∀ f, m ≤ f → digitsLenF f m = digitsLen m := by
  induction m using Nat.strong_induction_on with
  | _ m ih =>
    intro f hf
    match m, f with
    | 0, f => cases f <;> rfl
    | m + 1, f + 1 =>
      show digitsLenF f ((m + 1) / 58) + 1 = digitsLen (m + 1)
      have hq : (m + 1) / 58 ≤ m := by
        have := Nat.div_lt_self (Nat.succ_pos m) (by omega : (1 : Nat) < 58)
        omega
      show _ = digitsLenF (m + 1) (m + 1)
      show _ = digitsLenF m ((m + 1) / 58) + 1
      have h1 : (m + 1) / 58 < m + 1 := by omega
      have h2 : (m + 1) / 58 ≤ f := by omega
      rw [ih _ h1 f h2, ih _ h1 m hq]

/-- The natural recurrence of the `encoded_len_for_bytes` digit loop. -/
theorem digitsLen_succ (m : Nat) : digitsLen (m + 1) = digitsLen ((m + 1) / 58) + 1 := by
  show digitsLenF m ((m + 1) / 58) + 1 = _
  rw [digitsLenF_fuel ((m + 1) / 58) m
    (by have := Nat.div_lt_self (Nat.succ_pos m) (by omega : (1 : Nat) < 58); omega)]

theorem digitsLen_mono : ∀ {v w : Nat}, v ≤ w → digitsLen v ≤ digitsLen w := by
  intro v w
  induction w using Nat.strong_induction_on generalizing v with
  | _ w ih =>
    intro hvw
    match v, w with
    | 0, w => exact Nat.zero_le _
    | v + 1, w + 1 =>
      rw [digitsLen_succ v, digitsLen_succ w]
      have hd : (v + 1) / 58 ≤ (w + 1) / 58 := Nat.div_le_div_right hvw
      have hlt : (w + 1) / 58 < w + 1 := Nat.div_lt_self (Nat.succ_pos w) (by omega)
      exact Nat.succ_le_succ (ih ((w + 1) / 58) hlt hd)

theorem digitsLen_le_of_lt_pow : ∀ (k v : Nat), v < 58 ^ k → digitsLen v ≤ k := by
  intro k
  induction k with
  | zero => intro v hv; interval_cases v; exact Nat.le_refl 0
  | succ k ih =>
    intro v hv
    match v with
    | 0 => exact Nat.zero_le _
    | v + 1 =>
      rw [digitsLen_succ v]
      have : (v + 1) / 58 < 58 ^ k := by
        apply Nat.div_lt_of_lt_mul
        calc v + 1 < 58 ^ (k + 1) := hv
        _ = 58 * 58 ^ k := by ring
      exact Nat.succ_le_succ (ih _ this)

theorem unpaddedDigitsF_fuel (v : Nat) : ∀ f, v ≤ f → unpaddedDigitsF f v = unpaddedDigitsLE v := by
  induction v using Nat.strong_induction_on with
  | _ v ih =>
    intro f hf
    match v, f with
    | 0, f => cases f <;> rfl
    | v + 1, f + 1 =>
      show (v + 1) % 58 :: unpaddedDigitsF f ((v + 1) / 58) = unpaddedDigitsLE (v + 1)
      have hq : (v + 1) / 58 ≤ v := by
        have := Nat.div_lt_self (Nat.succ_pos v) (by omega : (1 : Nat) < 58)
        omega
      show _ = unpaddedDigitsF (v + 1) (v + 1)
      show _ = (v + 1) % 58 :: unpaddedDigitsF v ((v + 1) / 58)
      rw [ih ((v + 1) / 58) (by omega) f (by omega),
          ih ((v + 1) / 58) (by omega) v (by omega)]

/-- The natural recurrence of the `while val > 0` digit loop of `encode`. -/
theorem unpaddedDigitsLE_succ (v : Nat) :
    unpaddedDigitsLE (v + 1) = (v + 1) % 58 :: unpaddedDigitsLE ((v + 1) / 58) := by
  show (v + 1) % 58 :: unpaddedDigitsF v ((v + 1) / 58) = _
  rw [unpaddedDigitsF_fuel ((v + 1) / 58) v
    (by have := Nat.div_lt_self (Nat.succ_pos v) (by omega : (1 : Nat) < 58); omega)]

theorem length_unpaddedDigitsLE : ∀ v : Nat, (unpaddedDigitsLE v).length = digitsLen v := by
  intro v
  induction v using Nat.strong_induction_on with
  | _ v ih =>
    match v with
    | 0 => rfl
    | v + 1 =>
      rw [unpaddedDigitsLE_succ, digitsLen_succ, List.length_cons]
      rw [ih ((v + 1) / 58) (Nat.div_lt_self (Nat.succ_pos v) (by omega))]

theorem mem_unpaddedDigitsLE_lt : ∀ (v d : Nat), d ∈ unpaddedDigitsLE v → d < 58 := by
  intro v
  induction v using Nat.strong_induction_on with
  | _ v ih =>
    intro d hd
    match v with
    | 0 => simp [unpaddedDigitsLE, unpaddedDigitsF] at hd
    | v + 1 =>
      rw [unpaddedDigitsLE_succ] at hd
      rcases List.mem_cons.mp hd with h | h
      · subst h; exact Nat.mod_lt _ (by omega)
      · exact ih ((v + 1) / 58) (Nat.div_lt_self (Nat.succ_pos v) (by omega)) d h

theorem foldr_unpaddedDigitsLE : ∀ v : Nat,
    (unpaddedDigitsLE v).foldr (fun d a => a * 58 + d) 0 = v := by
  intro v
  induction v using Nat.strong_induction_on with
  | _ v ih =>
    match v with
    | 0 => rfl
    | v + 1 =>
      rw [unpaddedDigitsLE_succ, List.foldr_cons,
        ih ((v + 1) / 58) (Nat.div_lt_self (Nat.succ_pos v) (by omega))]
      omega

theorem chunksF_fuel : ∀ (f : Nat) (l : List Nat) (n : Nat),
    l.length ≤ f → 0 < n → chunksF f n l = chunksL n l := by
  intro f
  induction f using Nat.strong_induction_on with
  | _ f ih =>
    intro l n hl hn
    match l, f with
    | [], f => cases f <;> rfl
    | x :: xs, f + 1 =>
      show (x :: xs).take n :: chunksF f n ((x :: xs).drop n) = chunksL n (x :: xs)
      show _ = chunksF (xs.length + 1) n (x :: xs)
      show _ = (x :: xs).take n :: chunksF xs.length n ((x :: xs).drop n)
      have hd : ((x :: xs).drop n).length ≤ xs.length := by
        simp only [List.length_drop, List.length_cons]; omega
      have hxf : xs.length ≤ f := by
        simp only [List.length_cons] at hl; omega
      rw [ih f (by omega) _ n (by omega) hn,
          ih xs.length (by omega) _ n (by omega) hn]

/-- The natural recurrence of `chunks` on a nonempty list. -/
theorem chunksL_cons (n : Nat) (l : List Nat) (hl : l ≠ []) (hn : 0 < n) :
    chunksL n l = l.take n :: chunksL n (l.drop n) := by
  match l with
  | x :: xs =>
    show (x :: xs).take n :: chunksF xs.length n ((x :: xs).drop n) = _
    have hd : ((x :: xs).drop n).length ≤ xs.length := by
      simp only [List.length_drop, List.length_cons]; omega
    rw [chunksF_fuel xs.length _ n hd hn]


theorem beFoldl_lt (c : List Nat) : ∀ a : Nat, (∀ b ∈ c, b < 256) →
    c.foldl (fun x b => x * 256 + b) a < (a + 1) * 256 ^ c.length := by
  induction c with
  | nil => intro a _; simp
  | cons b rest ih =>
    intro a hb
    rw [List.foldl_cons]
    have hb0 : b < 256 := hb b (List.mem_cons_self b rest)
    have h1 : rest.foldl (fun x b => x * 256 + b) (a * 256 + b) <
        (a * 256 + b + 1) * 256 ^ rest.length :=
      ih (a * 256 + b) (fun x hx => hb x (List.mem_cons_of_mem b hx))
    calc rest.foldl (fun x b => x * 256 + b) (a * 256 + b)
        < (a * 256 + b + 1) * 256 ^ rest.length := h1
      _ ≤ ((a + 1) * 256) * 256 ^ rest.length := by
          apply Nat.mul_le_mul_right
          omega
      _ = (a + 1) * 256 ^ (b :: rest).length := by
          rw [List.length_cons]
          ring

theorem beBytesToNat_lt (c : List Nat) (hb : ∀ b ∈ c, b < 256) :
    beBytesToNat c < 256 ^ c.length := by
  have := beFoldl_lt c 0 hb
  simpa [beBytesToNat] using this

theorem beBytesToNat_replicate_zero (m : Nat) (c : List Nat) :
    beBytesToNat (List.replicate m 0 ++ c) = beBytesToNat c := by
  induction m with
  | zero => rfl
  | succ m ih =>
    rw [List.replicate_succ, List.cons_append]
    show (List.replicate m 0 ++ c).foldl (fun a b => a * 256 + b) (0 * 256 + 0) = _
    simpa [beBytesToNat] using ih

theorem natToBEBytes_beBytesToNat : ∀ (k : Nat) (c : List Nat),
    (∀ b ∈ c, b < 256) → c.length ≤ k →
    natToBEBytes k (beBytesToNat c) = List.replicate (k - c.length) 0 ++ c := by
  intro k
  induction k with
  | zero =>
    intro c _ hl
    have : c = [] := List.length_eq_zero.mp (Nat.le_zero.mp hl)
    subst this; rfl
  | succ k ih =>
    intro c hb hl
    rcases c.eq_nil_or_concat with hc | ⟨c', b, hc⟩
    · subst hc
      show natToBEBytes k (0 / 256) ++ [0 % 256] = List.replicate (k + 1) 0 ++ []
      have : natToBEBytes k (beBytesToNat []) = List.replicate (k - 0) 0 ++ [] :=
        ih [] (by simp) (by simp)
      simp only [beBytesToNat, List.foldl_nil] at this
      simp [this, Nat.zero_div, List.replicate_succ']
    · subst hc
      rw [List.concat_eq_append] at *
      have hb' : b < 256 := hb b (by simp)
      have hval : beBytesToNat (c' ++ [b]) = beBytesToNat c' * 256 + b := by
        simp [beBytesToNat, List.foldl_append]
      show natToBEBytes k (beBytesToNat (c' ++ [b]) / 256) ++
          [beBytesToNat (c' ++ [b]) % 256] = _
      rw [hval]
      have hdiv : (beBytesToNat c' * 256 + b) / 256 = beBytesToNat c' := by omega
      have hmod : (beBytesToNat c' * 256 + b) % 256 = b := by omega
      rw [hdiv, hmod,
        ih c' (fun x hx => hb x (by simp [hx])) (by simp at hl; omega)]
      have hlen : (c' ++ [b]).length = c'.length + 1 := by simp
      rw [hlen, List.append_assoc]
      congr 2
      omega

theorem natToLEBytes_lt (k : Nat) : ∀ (v : Nat) (b : Nat),
    b ∈ natToLEBytes k v → b < 256 := by
  induction k with
  | zero => intro v b hb; simp [natToLEBytes] at hb
  | succ k ih =>
    intro v b hb
    rcases List.mem_cons.mp hb with h | h
    · subst h; exact Nat.mod_lt _ (by omega)
    · exact ih (v / 256) b h

theorem length_natToLEBytes (k : Nat) : ∀ v : Nat, (natToLEBytes k v).length = k := by
  induction k with
  | zero => intro v; rfl
  | succ k ih => intro v; simp [natToLEBytes, ih]

theorem leBytesToNat_natToLEBytes (k : Nat) : ∀ v : Nat, v < 256 ^ k →
    leBytesToNat (natToLEBytes k v) = v := by
  induction k with
  | zero =>
    intro v hv
    interval_cases v
    rfl
  | succ k ih =>
    intro v hv
    show (natToLEBytes k (v / 256)).foldr (fun b a => a * 256 + b) 0 * 256 + v % 256 = v
    have hdiv : v / 256 < 256 ^ k := by
      apply Nat.div_lt_of_lt_mul
      calc v < 256 ^ (k + 1) := hv
        _ = 256 * 256 ^ k := by ring
    have := ih (v / 256) hdiv
    simp only [leBytesToNat] at this
    rw [this]
    omega

/-! ### Base58 digit-accumulation lemmas -/

theorem le_b58ValFrom (ds : List Nat) : ∀ a : Nat, a ≤ b58ValFrom a ds := by
  induction ds with
  | nil => intro a; exact Nat.le_refl a
  | cons d rest ih =>
    intro a
    calc a ≤ a * 58 + d := by
          have : a ≤ a * 58 := Nat.le_mul_of_pos_right a (by omega)
          omega
      _ ≤ b58ValFrom (a * 58 + d) rest := ih (a * 58 + d)

theorem b58ValFrom_cons (a d : Nat) (rest : List Nat) :
    b58ValFrom a (d :: rest) = b58ValFrom (a * 58 + d) rest := rfl

/-- Looking a digit's character back up in the alphabet recovers the
digit (the alphabet has no duplicate characters). -/
theorem alphabet_findIdx : ∀ d : Nat, d < 58 →
    ALPHABET.findIdx? (fun a => a = ALPHABET.getD d 0) = some d := by decide

/-- The decode accumulation loop, run over the characters of a digit list
whose total value fits the 64-bit accumulator, succeeds and computes that
value. -/
theorem decodeChunkSum_digits (ds : List Nat) : ∀ a : Nat,
    (∀ d ∈ ds, d < 58) → b58ValFrom a ds < 2 ^ 64 →
    decodeChunkSum a (ds.map (fun d => ALPHABET.getD d 0)) = some (b58ValFrom a ds) := by
  induction ds with
  | nil => intro a _ _; rfl
  | cons d rest ih =>
    intro a hd hv
    have hd0 : d < 58 := hd d (List.mem_cons_self d rest)
    have hstep : a * 58 + d ≤ b58ValFrom a (d :: rest) := by
      rw [b58ValFrom_cons]; exact le_b58ValFrom rest (a * 58 + d)
    have hmul : a * 58 < 2 ^ 64 := by omega
    show decodeChunkSum a (ALPHABET.getD d 0 :: rest.map (fun d => ALPHABET.getD d 0)) = _
    show (if a * 58 < 2 ^ 64 then _ else none) = _
    rw [if_pos hmul, alphabet_findIdx d hd0]
    show decodeChunkSum ((a * 58 + d) % 2 ^ 64) (rest.map (fun d => ALPHABET.getD d 0)) = _
    rw [Nat.mod_eq_of_lt (by omega), b58ValFrom_cons]
    exact ih (a * 58 + d) (fun x hx => hd x (List.mem_cons_of_mem d hx))
      (by rw [b58ValFrom_cons] at hv; exact hv)

theorem b58ValFrom_replicate_zero (m : Nat) (ds : List Nat) :
    b58ValFrom 0 (List.replicate m 0 ++ ds) = b58ValFrom 0 ds := by
  induction m with
  | zero => rfl
  | succ m ih =>
    rw [List.replicate_succ, List.cons_append, b58ValFrom_cons]
    simpa using ih

theorem b58ValFrom_reverse_digits (v : Nat) :
    b58ValFrom 0 (unpaddedDigitsLE v).reverse = v := by
  show ((unpaddedDigitsLE v).reverse).foldl (fun x d => x * 58 + d) 0 = v
  rw [List.foldl_reverse]
  exact foldr_unpaddedDigitsLE v

/-! ### Per-chunk encode/decode correctness -/

/-- For each remainder byte-length `1..=8`, the digit count of the largest
representable value equals `encoded_len_for_bytes` (finite check). -/
theorem digitsLen_max_eq : ∀ k < 9, 1 ≤ k →
    digitsLen (256 ^ k - 1) = encoded_len_for_bytes k := by decide

theorem encLen_le_11 : ∀ k < 9, encoded_len_for_bytes k ≤ 11 := by decide

theorem encLen_pos : ∀ k < 9, 1 ≤ k → 0 < encoded_len_for_bytes k := by decide

/-- The inverse length lookup of `decode` recovers the byte length of a
partial chunk (`encoded_len_for_bytes` is injective on `1..=8`). -/
theorem find_used_bytes : ∀ k < 9, 1 ≤ k →
    (List.range' 1 8).find? (fun i => encoded_len_for_bytes i == encoded_len_for_bytes k) =
      some k := by decide

theorem digitsLen_le_encLen (chunk : List Nat) (hb : ∀ b ∈ chunk, b < 256)
    (h1 : 1 ≤ chunk.length) (h8 : chunk.length ≤ 8) :
    digitsLen (beBytesToNat chunk) ≤ encoded_len_for_bytes chunk.length := by
  have hv : beBytesToNat chunk < 256 ^ chunk.length := beBytesToNat_lt chunk hb
  calc digitsLen (beBytesToNat chunk)
      ≤ digitsLen (256 ^ chunk.length - 1) := digitsLen_mono (by omega)
    _ = encoded_len_for_bytes chunk.length := digitsLen_max_eq chunk.length (by omega) h1

/-- The digit string a chunk encodes to: padding digit-0 slots, then the
value's base58 digits most-significant first, all mapped through the
alphabet. -/
theorem encodeChunk_eq (chunk : List Nat) (hb : ∀ b ∈ chunk, b < 256)
    (h1 : 1 ≤ chunk.length) (h8 : chunk.length ≤ 8) :
    encodeChunk chunk =
      (List.replicate
          (encoded_len_for_bytes chunk.length - digitsLen (beBytesToNat chunk)) 0 ++
        (unpaddedDigitsLE (beBytesToNat chunk)).reverse).map
        (fun i => ALPHABET.getD i 0) := by
  have hd_le : digitsLen (beBytesToNat chunk) ≤ encoded_len_for_bytes chunk.length :=
    digitsLen_le_encLen chunk hb h1 h8
  have h11 : encoded_len_for_bytes chunk.length ≤ 11 := encLen_le_11 chunk.length (by omega)
  unfold encodeChunk
  simp only [beBytesToNat_replicate_zero]
  rw [List.take_append_eq_append_take,
    List.take_of_length_le (by rw [length_unpaddedDigitsLE]; exact hd_le),
    List.take_replicate, length_unpaddedDigitsLE]
  rw [List.reverse_append, List.reverse_replicate]
  congr 3
  omega

theorem length_encodeChunk (chunk : List Nat) (hb : ∀ b ∈ chunk, b < 256)
    (h1 : 1 ≤ chunk.length) (h8 : chunk.length ≤ 8) :
    (encodeChunk chunk).length = encoded_len_for_bytes chunk.length := by
  rw [encodeChunk_eq chunk hb h1 h8]
  have hd_le : digitsLen (beBytesToNat chunk) ≤ encoded_len_for_bytes chunk.length :=
    digitsLen_le_encLen chunk hb h1 h8
  simp only [List.length_map, List.length_append, List.length_replicate,
    List.length_reverse, length_unpaddedDigitsLE]
  omega

/-- Running the decode accumulation loop on a chunk's encoding recovers the
chunk's big-endian value. -/
theorem decodeChunkSum_encodeChunk (chunk : List Nat) (hb : ∀ b ∈ chunk, b < 256)
    (h1 : 1 ≤ chunk.length) (h8 : chunk.length ≤ 8) :
    decodeChunkSum 0 (encodeChunk chunk) = some (beBytesToNat chunk) := by
  have hv : beBytesToNat chunk < 256 ^ chunk.length := beBytesToNat_lt chunk hb
  have hv64 : beBytesToNat chunk < 2 ^ 64 := by
    calc beBytesToNat chunk < 256 ^ chunk.length := hv
      _ ≤ 256 ^ 8 := Nat.pow_le_pow_right (by omega) h8
      _ = 2 ^ 64 := by norm_num
  rw [encodeChunk_eq chunk hb h1 h8]
  have hds : ∀ d ∈ List.replicate
      (encoded_len_for_bytes chunk.length - digitsLen (beBytesToNat chunk)) 0 ++
      (unpaddedDigitsLE (beBytesToNat chunk)).reverse, d < 58 := by
    intro d hd
    rcases List.mem_append.mp hd with h | h
    · rw [List.eq_of_mem_replicate h]; omega
    · exact mem_unpaddedDigitsLE_lt (beBytesToNat chunk) d (List.mem_reverse.mp h)
  have hval : b58ValFrom 0 (List.replicate
      (encoded_len_for_bytes chunk.length - digitsLen (beBytesToNat chunk)) 0 ++
      (unpaddedDigitsLE (beBytesToNat chunk)).reverse) = beBytesToNat chunk := by
    rw [b58ValFrom_replicate_zero, b58ValFrom_reverse_digits]
  rw [decodeChunkSum_digits _ 0 hds (by rw [hval]; exact hv64), hval]

/-- One decode step over a chunk's encoding: the original chunk bytes are
emitted in front of whatever the remaining chunks produce. -/
theorem decodeGo_encodeChunk (chunk : List Nat) (hb : ∀ b ∈ chunk, b < 256)
    (h1 : 1 ≤ chunk.length) (h8 : chunk.length ≤ 8) (rest : List (List Nat)) :
    decodeGo (encodeChunk chunk :: rest) =
      match decodeGo rest with
      | .ok bs => .ok (chunk ++ bs)
      | r => r := by
  show (match decodeChunkSum 0 (encodeChunk chunk) with
    | none => DRes.fail
    | some sum =>
      match (List.range' 1 8).find?
          (fun i => encoded_len_for_bytes i == (encodeChunk chunk).length) with
      | none => DRes.crash
      | some used =>
        match decodeGo rest with
        | .ok bs => .ok ((natToBEBytes 8 sum).drop (8 - used) ++ bs)
        | r => r) = _
  rw [decodeChunkSum_encodeChunk chunk hb h1 h8,
    length_encodeChunk chunk hb h1 h8,
    find_used_bytes chunk.length (by omega) h1]
  show (match decodeGo rest with
    | DRes.ok bs =>
      DRes.ok ((natToBEBytes 8 (beBytesToNat chunk)).drop (8 - chunk.length) ++ bs)
    | r => r) = _
  rw [natToBEBytes_beBytesToNat 8 chunk hb h8]
  have hdrop : (List.replicate (8 - chunk.length) 0 ++ chunk).drop (8 - chunk.length)
      = chunk := List.drop_left' (by simp)
  rw [hdrop]

/-- Unfolding `encode` one 8-byte chunk at a time. -/
theorem encodeB58_cons (bytes : List Nat) (h : bytes ≠ []) :
    encodeB58 bytes = encodeChunk (bytes.take 8) ++ encodeB58 (bytes.drop 8) := by
  unfold encodeB58
  rw [chunksL_cons 8 bytes h (by omega)]
  simp

/-- `chunks 11` of a single nonempty block of at most 11 characters. -/
theorem chunksL_single (l : List Nat) (h0 : l ≠ []) (h11 : l.length ≤ 11) :
    chunksL 11 l = [l] := by
  rw [chunksL_cons 11 l h0 (by omega), List.take_of_length_le h11,
    List.drop_eq_nil_of_le h11]
  rfl

/-- `chunks 11` of an 11-character block followed by more input. -/
theorem chunksL_append11 (x y : List Nat) (hx : x.length = 11) :
    chunksL 11 (x ++ y) = x :: chunksL 11 y := by
  have hne : x ++ y ≠ [] := by
    intro h
    rcases List.append_eq_nil.mp h with ⟨h1, _⟩
    subst h1; simp at hx
  rw [chunksL_cons 11 (x ++ y) hne (by omega), List.take_left' hx, List.drop_left' hx]

/-- Round trip of the base58 codec on arbitrary byte strings: `decode`
applied to `encode` succeeds (returns, does not fail or panic) with exactly
the input bytes. -/
theorem decode_encode_ok (bytes : List Nat) (hb : ∀ b ∈ bytes, b < 256) :
    decodeB58 (encodeB58 bytes) = .ok bytes := by
  suffices H : ∀ (n : Nat) (bs : List Nat), bs.length ≤ n → (∀ b ∈ bs, b < 256) →
      decodeB58 (encodeB58 bs) = .ok bs from H bytes.length bytes (Nat.le_refl _) hb
  intro n
  induction n with
  | zero =>
    intro bs hl _
    have : bs = [] := List.length_eq_zero.mp (Nat.le_zero.mp hl)
    subst this; decide
  | succ n ih =>
    intro bs hl hbs
    rcases eq_or_ne bs [] with hnil | hne
    · subst hnil; decide
    · have hpos : 0 < bs.length := List.length_pos.mpr hne
      have hchunkb : ∀ b ∈ bs.take 8, b < 256 := fun b hmem =>
        hbs b (List.mem_of_mem_take hmem)
      have hchunk1 : 1 ≤ (bs.take 8).length := by
        rw [List.length_take]; omega
      have hchunk8 : (bs.take 8).length ≤ 8 := by
        rw [List.length_take]; omega
      rw [encodeB58_cons bs hne]
      rcases le_or_lt bs.length 8 with hle | hgt
      · -- single (possibly partial) chunk
        have hdrop : bs.drop 8 = [] := List.drop_eq_nil_of_le hle
        have htake : bs.take 8 = bs := List.take_of_length_le hle
        rw [hdrop]
        show decodeB58 (encodeChunk (bs.take 8) ++ []) = _
        rw [List.append_nil]
        unfold decodeB58
        have hlen : (encodeChunk (bs.take 8)).length = encoded_len_for_bytes (bs.take 8).length :=
          length_encodeChunk _ hchunkb hchunk1 hchunk8
        have henc_pos : 0 < (encodeChunk (bs.take 8)).length := by
          rw [hlen]; exact encLen_pos _ (by omega) hchunk1
        rw [chunksL_single _ (by intro h; rw [h] at henc_pos; simp at henc_pos)
          (by rw [hlen]; exact encLen_le_11 _ (by omega))]
        rw [decodeGo_encodeChunk _ hchunkb hchunk1 hchunk8 []]
        show DRes.ok (bs.take 8 ++ []) = _
        rw [List.append_nil, htake]
      · -- a full chunk followed by more bytes
        have hfull : (bs.take 8).length = 8 := by
          rw [List.length_take]; omega
        have hlen : (encodeChunk (bs.take 8)).length = 11 := by
          rw [length_encodeChunk _ hchunkb hchunk1 hchunk8, hfull]
          decide
        unfold decodeB58
        rw [chunksL_append11 _ _ hlen]
        show decodeGo (encodeChunk (bs.take 8) :: chunksL 11 (encodeB58 (bs.drop 8))) = _
        rw [decodeGo_encodeChunk _ hchunkb hchunk1 hchunk8]
        have hrest : decodeB58 (encodeB58 (bs.drop 8)) = .ok (bs.drop 8) := by
          apply ih (bs.drop 8)
          · rw [List.length_drop]; omega
          · exact fun b hmem => hbs b (List.mem_of_mem_drop hmem)
        unfold decodeB58 at hrest
        rw [hrest]
        show DRes.ok (bs.take 8 ++ bs.drop 8) = _
        rw [List.take_append_drop]

/-! ### Serialization roundtrip machinery -/

theorem encLen_add8 (m : Nat) :
    encoded_len_for_bytes (m + 8) = encoded_len_for_bytes m + 11 := by
  simp only [encoded_len_for_bytes]
  rw [Nat.add_mod_right, Nat.add_div_right m (by omega)]
  omega

/-- `encode` always produces exactly `encoded_len_for_bytes` characters. -/
theorem length_encodeB58 (bytes : List Nat) (hb : ∀ b ∈ bytes, b < 256) :
    (encodeB58 bytes).length = encoded_len_for_bytes bytes.length := by
  suffices H : ∀ (n : Nat) (bs : List Nat), bs.length ≤ n → (∀ b ∈ bs, b < 256) →
      (encodeB58 bs).length = encoded_len_for_bytes bs.length from
    H bytes.length bytes (Nat.le_refl _) hb
  intro n
  induction n with
  | zero =>
    intro bs hl _
    have : bs = [] := List.length_eq_zero.mp (Nat.le_zero.mp hl)
    subst this; decide
  | succ n ih =>
    intro bs hl hbs
    rcases eq_or_ne bs [] with hnil | hne
    · subst hnil; decide
    · have hpos : 0 < bs.length := List.length_pos.mpr hne
      have hchunkb : ∀ b ∈ bs.take 8, b < 256 := fun b hmem =>
        hbs b (List.mem_of_mem_take hmem)
      have hchunk1 : 1 ≤ (bs.take 8).length := by rw [List.length_take]; omega
      have hchunk8 : (bs.take 8).length ≤ 8 := by rw [List.length_take]; omega
      rw [encodeB58_cons bs hne, List.length_append,
        length_encodeChunk _ hchunkb hchunk1 hchunk8,
        ih (bs.drop 8) (by rw [List.length_drop]; omega)
          (fun b hmem => hbs b (List.mem_of_mem_drop hmem))]
      rcases le_or_lt bs.length 8 with hle | hgt
      · have h1 : bs.take 8 = bs := List.take_of_length_le hle
        have h2 : bs.drop 8 = [] := List.drop_eq_nil_of_le hle
        rw [h1, h2]
        show encoded_len_for_bytes bs.length + encoded_len_for_bytes 0 = _
        have : encoded_len_for_bytes 0 = 0 := by decide
        omega
      · have h1 : (bs.take 8).length = 8 := by rw [List.length_take]; omega
        have h2 : (bs.drop 8).length = bs.length - 8 := by rw [List.length_drop]
        have key : encoded_len_for_bytes bs.length =
            encoded_len_for_bytes (bs.length - 8) + 11 := by
          conv_lhs => rw [show bs.length = (bs.length - 8) + 8 from by omega]
          rw [encLen_add8]
        rw [h1, h2, key]
        have : encoded_len_for_bytes 8 = 11 := by decide
        omega

theorem length_compressPt (p : Pt) : (compressPt p).length = 32 :=
  length_natToLEBytes 32 p.val

theorem length_scalarBytes (s : Sc) : (scalarBytes s).length = 32 :=
  length_natToLEBytes 32 s.val

theorem compressPt_bytes_lt (p : Pt) : ∀ b ∈ compressPt p, b < 256 :=
  fun b hb => natToLEBytes_lt 32 p.val b hb

theorem scalarBytes_lt (s : Sc) : ∀ b ∈ scalarBytes s, b < 256 :=
  fun b hb => natToLEBytes_lt 32 s.val b hb

/-- Parsing a compressed point back recovers the point (the encoding is
canonical). -/
theorem readPt_compressPt (p : Pt) : readPt (compressPt p) = some p := by
  have hval : p.val < curveOrder := ZMod.val_lt p
  have hlt : curveOrder < 256 ^ 32 := by decide
  have hround : leBytesToNat (compressPt p) = p.val :=
    leBytesToNat_natToLEBytes 32 p.val (by omega)
  unfold readPt
  rw [if_pos ⟨length_compressPt p, by omega⟩, hround]
  exact congrArg some (ZMod.natCast_rightInverse p)

/-- Parsing a scalar's bytes back recovers the scalar. -/
theorem readSc_scalarBytes (s : Sc) : readSc (scalarBytes s) = some s := by
  have hval : s.val < lOrd := ZMod.val_lt s
  have hlt : lOrd < 256 ^ 32 := by decide
  have hround : leBytesToNat (scalarBytes s) = s.val :=
    leBytesToNat_natToLEBytes 32 s.val (by omega)
  unfold readSc
  rw [if_pos (by omega), hround]
  exact congrArg some (ZMod.natCast_rightInverse s)

/-- The serialized body of one proof: 44 characters of encoded `ecdh`, then
88 characters of encoded signature. -/
theorem length_proof_block (pf : OutProofM) :
    (encodeB58 (compressPt pf.ecdh)).length = 44 ∧
    (encodeB58 (scalarBytes pf.c ++ scalarBytes pf.s)).length = 88 := by
  constructor
  · rw [length_encodeB58 _ (compressPt_bytes_lt pf.ecdh), length_compressPt]
    decide
  · have hb : ∀ b ∈ scalarBytes pf.c ++ scalarBytes pf.s, b < 256 := by
      intro b hb
      rcases List.mem_append.mp hb with h | h
      · exact scalarBytes_lt pf.c b h
      · exact scalarBytes_lt pf.s b h
    rw [length_encodeB58 _ hb, List.length_append, length_scalarBytes,
      length_scalarBytes]
    decide

/-- The field loop of `read` inverts the body produced by `write`, for any
sufficient fuel. -/
theorem readGoF_write : ∀ (ps : List OutProofM) (f : Nat),
    ((ps.map (fun pf => encodeB58 (compressPt pf.ecdh) ++
      encodeB58 (scalarBytes pf.c ++ scalarBytes pf.s))).flatten).length ≤ f →
    readGoF f ((ps.map (fun pf => encodeB58 (compressPt pf.ecdh) ++
      encodeB58 (scalarBytes pf.c ++ scalarBytes pf.s))).flatten) = .ok ps := by
  intro ps
  induction ps with
  | nil =>
    intro f _
    show readGoF f [] = .ok []
    cases f <;> rfl
  | cons pf rest ih =>
    intro f hf
    obtain ⟨h44, h88⟩ := length_proof_block pf
    set e1 := encodeB58 (compressPt pf.ecdh) with he1
    set e2 := encodeB58 (scalarBytes pf.c ++ scalarBytes pf.s) with he2
    set body := (rest.map (fun pf => encodeB58 (compressPt pf.ecdh) ++
      encodeB58 (scalarBytes pf.c ++ scalarBytes pf.s))).flatten with hbody
    have hshape : ((pf :: rest).map (fun pf => encodeB58 (compressPt pf.ecdh) ++
        encodeB58 (scalarBytes pf.c ++ scalarBytes pf.s))).flatten =
        e1 ++ (e2 ++ body) := by
      simp [he1, he2, hbody]
    rw [hshape] at hf ⊢
    have hlen : (e1 ++ (e2 ++ body)).length = 132 + body.length := by
      simp only [List.length_append, h44, h88]
      omega
    obtain ⟨c, cs, hc⟩ : ∃ c cs, e1 ++ (e2 ++ body) = c :: cs := by
      rcases List.exists_cons_of_ne_nil
        (l := e1 ++ (e2 ++ body)) (by
          intro h
          rw [h] at hlen
          simp at hlen
          omega) with ⟨c, cs, hc⟩
      exact ⟨c, cs, hc⟩
    match f with
    | 0 =>
      exfalso
      rw [hlen] at hf
      omega
    | f + 1 =>
      rw [hc]
      show (if (c :: cs).length < encoded_len_for_bytes 32 + encoded_len_for_bytes 64
        then RRes.fail
        else bindDRes (decodeB58 ((c :: cs).take (encoded_len_for_bytes 32)))
          (fun ecdh_bytes =>
            bindDRes (decodeB58 (((c :: cs).drop (encoded_len_for_bytes 32)).take
                (encoded_len_for_bytes 64)))
              (fun signature =>
                match readPt ecdh_bytes, readSc (signature.take 32),
                    readSc (signature.drop 32) with
                | some p, some c0, some s0 =>
                  (match readGoF f (((c :: cs).drop (encoded_len_for_bytes 32)).drop
                      (encoded_len_for_bytes 64)) with
                  | .ok r => .ok ({ ecdh := p, c := c0, s := s0 } :: r)
                  | r => r)
                | _, _, _ => RRes.fail))) = RRes.ok (pf :: rest)
      rw [← hc]
      have henc32 : encoded_len_for_bytes 32 = 44 := by decide
      have henc64 : encoded_len_for_bytes 64 = 88 := by decide
      rw [if_neg (by rw [hlen, henc32, henc64]; omega)]
      rw [henc32, henc64]
      rw [List.take_left' h44, List.drop_left' h44, List.take_left' h88,
        List.drop_left' h88]
      rw [he1, decode_encode_ok _ (compressPt_bytes_lt pf.ecdh)]
      have hb2 : ∀ b ∈ scalarBytes pf.c ++ scalarBytes pf.s, b < 256 := by
        intro b hb
        rcases List.mem_append.mp hb with h | h
        · exact scalarBytes_lt pf.c b h
        · exact scalarBytes_lt pf.s b h
      rw [he2, decode_encode_ok _ hb2]
      simp only [bindDRes]
      have hrest : readGoF f body = .ok rest := by
        apply ih
        rw [hlen] at hf
        omega
      rw [List.take_left' (length_scalarBytes pf.c),
        List.drop_left' (length_scalarBytes pf.c),
        readPt_compressPt, readSc_scalarBytes, readSc_scalarBytes, hrest]

/-- `read` inverts `write` on any proof list. -/
theorem read_write (ps : List OutProofM) : readM (writeM ps) = .ok ps := by
  unfold readM writeM
  rw [List.take_left' (by decide : outProofTag.length = 10), if_pos rfl,
    List.drop_left' (by decide : outProofTag.length = 10)]
  exact readGoF_write ps _ (Nat.le_refl _)

/-- A chunk list containing a chunk whose length matches no byte length in
`1..=8` can never decode to a returned byte string: the decode either fails
earlier or panics at the `unwrap`. -/
theorem decodeGo_ne_ok : ∀ (cs : List (List Nat)),
    (∃ c ∈ cs, (List.range' 1 8).find?
      (fun i => encoded_len_for_bytes i == c.length) = none) →
    ∀ bs, decodeGo cs ≠ DRes.ok bs := by
  intro cs
  induction cs with
  | nil =>
    rintro ⟨c, hc, _⟩
    exact absurd hc (List.not_mem_nil c)
  | cons c rest ih =>
    rintro ⟨c0, hc0mem, hc0⟩ bs
    cases hsum : decodeChunkSum 0 c with
    | none => simp [decodeGo, hsum]
    | some sum =>
      rcases List.mem_cons.mp hc0mem with rfl | hmem2
      · simp [decodeGo, hsum, hc0]
      · simp only [decodeGo, hsum]
        cases hfind : (List.range' 1 8).find?
            (fun i => encoded_len_for_bytes i == c.length) with
        | none => simp
        | some used =>
          cases hrest : decodeGo rest with
          | ok bs2 => exact absurd hrest (ih ⟨c0, hmem2, hc0⟩ bs2)
          | fail => simp
          | crash => simp

/-! ### Claim theorems -/

/-- C1: the claim states the commitment generator is the base point for
non-subaddresses and the spend key for subaddresses.  The source has the
condition inverted: at the concrete non-subaddress `addrPlain` both `prove`
and `verify` select the spend key (which differs from the base point), and
at the concrete subaddress `addrSub` they select the base point.  Only the
claim's second half — `prove` and `verify` choosing identically — holds. -/
theorem claim_C1_generator_inverted :
    addrPlain.isSubaddress = false ∧
    proveGenerator addrPlain = addrPlain.spend ∧
    addrPlain.spend ≠ basePoint ∧
    addrSub.isSubaddress = true ∧
    proveGenerator addrSub = basePoint ∧
    addrSub.spend ≠ basePoint ∧
    verifyGenerator addrPlain = proveGenerator addrPlain ∧
    verifyGenerator addrSub = proveGenerator addrSub := by
  refine ⟨rfl, by decide, by decide, rfl, by decide, by decide, rfl, rfl⟩

/-- C2: at a concrete, honestly-constructed input — the transaction's extra
holds exactly the ephemeral-key commitment `prove` publishes and the output
carries the derived view tag and a plaintext amount of 5 — `verify` of the
`prove`-produced proof returns `none`, because `verify` reconstructs the
nonce commitments with `s*gen - c*key` where the specification (and the
Schnorr equation matching `prove`'s `s = r - c*e`) requires
`s*gen + c*key`.  The specification's reconstruction (`verifySpecM`)
accepts the same proof and returns the amount. -/
theorem claim_C2_prove_verify_returns_none :
    verifyM keccakModel varintModel pfC2 txC2 0 addrPlain msgC2 = none ∧
    verifySpecM keccakModel varintModel pfC2 txC2 0 addrPlain msgC2 = some 5 ∧
    txC2.extraKeys = some ([smul ephC2 (proveGenerator addrPlain)], none) ∧
    txC2.outputs = [⟨some 5,
      some ((outputDerivations keccakModel varintModel none
        pfC2.ecdh 0).view_tag)⟩] := by
  refine ⟨by decide, by decide, rfl, rfl⟩

/-- C3: an 11-character chunk whose accumulated value is `2^64 + 33` — past
the 64-bit accumulator — is not rejected: `checked_mul` passes at every
step and the unchecked addition wraps, so decode returns the truncated
bytes of `33` instead of the failure the claim requires. -/
theorem claim_C3_overflow_wraps :
    decodeB58 overflowStr = DRes.ok [0, 0, 0, 0, 0, 0, 0, 33] ∧
    2 ^ 64 ≤ b58Val overflowDigits ∧
    overflowStr = overflowDigits.map (fun d => ALPHABET.getD d 0) := by
  refine ⟨by decide, by decide, rfl⟩

/-- C4, counterexample: on the 1-character input `"1"` — a chunk length
matching no byte length in `1..=8` — decode panics at the `unwrap` rather
than returning the `None` the claim requires. -/
theorem claim_C4_counterexample :
    decodeB58 [49] = DRes.crash ∧ decodeB58 [49] ≠ DRes.fail := by
  refine ⟨by decide, by decide⟩

/-- C4, amended: an input containing a chunk whose character length is not
`encoded_len_for_bytes(i)` for any `i` in `1..=8` never decodes to a
returned byte string — decode either returns an explicit failure (from an
earlier invalid-character or overflow check) or aborts at the byte-length
`unwrap`; it never returns a partial or wrapped result. -/
theorem claim_C4_bad_chunk_never_ok (data : List Nat)
    (h : ∃ chunk ∈ chunksL 11 data, ∀ i < 9, 1 ≤ i →
      encoded_len_for_bytes i ≠ chunk.length) :
    ∀ bs, decodeB58 data ≠ DRes.ok bs := by
  rcases h with ⟨chunk, hmem, hbad⟩
  apply decodeGo_ne_ok
  refine ⟨chunk, hmem, List.find?_eq_none.mpr ?_⟩
  intro i hi
  have hrange := List.mem_range'_1.mp hi
  simpa using hbad i (by omega) (by omega)

/-- C4, witness: the amended theorem applied at the concrete input `"1"`. -/
theorem claim_C4_witness :
    (∃ chunk ∈ chunksL 11 [49], ∀ i < 9, 1 ≤ i →
      encoded_len_for_bytes i ≠ chunk.length) ∧
    decodeB58 [49] ≠ DRes.ok [] :=
  ⟨by decide, claim_C4_bad_chunk_never_ok [49] (by decide) []⟩

/-- C5: decode inverts encode on every byte string of length at most 40
(indeed on every byte string), returning exactly the input bytes. -/
theorem claim_C5_roundtrip (bytes : List Nat) (hb : ∀ b ∈ bytes, b < 256)
    (_hlen : bytes.length ≤ 40) : decodeB58 (encodeB58 bytes) = DRes.ok bytes :=
  decode_encode_ok bytes hb

/-- C5, witness: the roundtrip theorem applied at the bytes `[1, 2, 3]`. -/
theorem claim_C5_witness :
    (∀ b ∈ [1, 2, 3], b < 256) ∧ ([1, 2, 3] : List Nat).length ≤ 40 ∧
    decodeB58 (encodeB58 [1, 2, 3]) = DRes.ok [1, 2, 3] :=
  ⟨by decide, by decide, claim_C5_roundtrip [1, 2, 3] (by decide) (by decide)⟩

/-- C6: deserializing the serialization of any list of at most 5 proofs
succeeds and returns the same list, element for element and field for
field (the model's proof components are canonical, as are those produced
by `prove`). -/
theorem claim_C6_serialization_roundtrip (ps : List OutProofM)
    (_h : ps.length ≤ 5) : readM (writeM ps) = RRes.ok ps :=
  read_write ps

/-- C6, witness: the roundtrip theorem applied to one concrete proof. -/
theorem claim_C6_witness :
    ([pfZero] : List OutProofM).length ≤ 5 ∧
    readM (writeM [pfZero]) = RRes.ok [pfZero] :=
  ⟨by decide, claim_C6_serialization_roundtrip [pfZero] (by decide)⟩

/-- C7: the challenge is the scalar reduction of the hash of exactly the
concatenation, in order: hash of the message, compressed `D`, compressed
`X`, compressed `Y`, the domain tag `hash("TXPROOF_V2")` for ordinary
addresses or `hash("TXPROOF_V2_GUARANTEED")` for guaranteed ones,
compressed `R`, the compressed view key, and the compressed spend key for
subaddresses or 32 zero bytes otherwise. -/
theorem claim_C7_challenge_structure (keccak : List Nat → List Nat)
    (address : AddressM) (X Y R D : Pt) (message : List Nat) :
    challengeM keccak address X Y R D message = scalarFromBytes (keccak (
      keccak message ++ compressPt D ++ compressPt X ++ compressPt Y ++
      (if address.isGuaranteed
       then keccak [84, 88, 80, 82, 79, 79, 70, 95, 86, 50, 95,
                    71, 85, 65, 82, 65, 78, 84, 69, 69, 68]
       else keccak [84, 88, 80, 82, 79, 79, 70, 95, 86, 50]) ++
      compressPt R ++ compressPt address.view ++
      (if address.isSubaddress
       then compressPt address.spend
       else List.replicate 32 0))) := by
  unfold challengeM
  cases hg : address.isGuaranteed <;> cases hs : address.isSubaddress <;>
    simp [hg, hs, List.append_assoc]

/-- C8: the view tag is the first byte of
`hash("view_tag" || compress(8*ecdh) || varint(o))`, computed without the
uniqueness value — so it is the same whether or not one is supplied — and
the shared key is the hash-to-scalar of the same buffer with the
uniqueness value prepended when supplied. -/
theorem claim_C8_output_derivations (keccak : List Nat → List Nat)
    (varint : Nat → List Nat) (uniq : Option (List Nat)) (ecdh : Pt) (o : Nat) :
    (outputDerivations keccak varint uniq ecdh o).view_tag =
      (keccak ([118, 105, 101, 119, 95, 116, 97, 103] ++
        (compressPt (mulByCofactor ecdh) ++ varint o))).getD 0 0 ∧
    (outputDerivations keccak varint uniq ecdh o).view_tag =
      (outputDerivations keccak varint none ecdh o).view_tag ∧
    (outputDerivations keccak varint uniq ecdh o).shared_key =
      scalarFromBytes (keccak (uniq.getD [] ++
        (compressPt (mulByCofactor ecdh) ++ varint o))) := by
  cases uniq <;> simp [outputDerivations]

/-- C9: any input not starting with the literal `"OutProofV2"` tag
deserializes to a successful empty proof list, not a failure. -/
theorem claim_C9_no_tag_empty_list (s : List Nat) (h : s.take 10 ≠ outProofTag) :
    readM s = RRes.ok [] := by
  unfold readM
  rw [if_neg h]

/-- C9, witness: the theorem applied to the input `"foo"`. -/
theorem claim_C9_witness :
    ([102, 111, 111] : List Nat).take 10 ≠ outProofTag ∧
    readM [102, 111, 111] = RRes.ok [] :=
  ⟨by decide, claim_C9_no_tag_empty_list [102, 111, 111] (by decide)⟩

/-- C10: decode is not injective and encode does not invert it on strings:
the 2-character chunk `"zz"` (value 3363 > 255) decodes to the single byte
35, whose encoding `"1c"` is a different string that decodes to the same
byte — the accumulated value's high-order bytes are discarded. -/
theorem claim_C10_decode_not_injective :
    decodeB58 [122, 122] = DRes.ok [35] ∧
    decodeB58 (encodeB58 [35]) = DRes.ok [35] ∧
    encodeB58 [35] ≠ [122, 122] := by
  refine ⟨by decide, by decide, by decide⟩
